import Mathlib

/-!
# Verification of the telegram-files gateway core

A shallow embedding of the security-critical core of the `telegram-files`
plugin: POSIX-style path normalization (`path.resolve` / `path.join` /
`path.dirname` / `path.basename` on absolute paths), the canonicalization
guard `safePath`, the containment checks `isPathAllowed` / `isAllowedRoot`,
the pairing-code store (`pairing.ts`), the session-token store, the
CORS-origin derivation, the HTTP endpoint handlers of `register.ts`, and the
bounded recursive `searchFiles` walk.

Filesystem interaction is modelled by oracle functions (`realpath`,
`readdir`, status outcomes) supplied as parameters; everything else is
translated directly from the TypeScript source.
-/

namespace TgFiles

/-- The NUL character, rejected in raw paths (`rawPath.includes("\0")`). -/
def nulChar : Char := Char.ofNat 0

/-- `strStarts s p` is JavaScript `s.startsWith(p)`. -/
def strStarts (s p : String) : Bool := p.data.isPrefixOf s.data

/-- Split a character list on `'/'`, dropping empty segments.  `acc` holds
the (reversed) characters of the segment currently being read. -/
def splitAux : List Char → List Char → List (List Char)
  | [], acc => if acc = [] then [] else [acc.reverse]
  | c :: t, acc =>
      if c = '/' then
        if acc = [] then splitAux t [] else acc.reverse :: splitAux t []
      else splitAux t (c :: acc)

/-- The `'/'`-separated segments of a path string. -/
def segsOf (s : String) : List (List Char) := splitAux s.data []

/-- Interleave segments with `'/'`. -/
def interC : List (List Char) → List Char
  | [] => []
  | [s] => s
  | s :: rest => s ++ '/' :: interC rest

/-- Render a segment list as an absolute path string. -/
def renderAbs (l : List (List Char)) : String := String.mk ('/' :: interC l)

/-- Process `"."` and `".."` segments the way `path.normalize` does on an
absolute path: `"."` is dropped, `".."` pops the last accumulated segment
(and is dropped at the root). -/
def normDotsGo : List (List Char) → List (List Char) → List (List Char)
  | acc, [] => acc
  | acc, s :: t =>
      if s = ['.'] then normDotsGo acc t
      else if s = ['.', '.'] then normDotsGo acc.dropLast t
      else normDotsGo (acc ++ [s]) t

/-- `path.normalize` restricted to absolute paths: split on `'/'`, drop
empty and `"."` segments, resolve `".."`, re-render. -/
def normalizeAbs (s : String) : String := renderAbs (normDotsGo [] (segsOf s))

/-- `path.join` of an absolute directory and a further component. -/
def joinAbs (d n : String) : String := normalizeAbs (d ++ "/" ++ n)

/-- `path.resolve(raw)` relative to the working directory `cwd`. -/
def resolveAbs (cwd raw : String) : String :=
  if strStarts raw "/" then normalizeAbs raw else normalizeAbs (cwd ++ "/" ++ raw)

/-- `s` is in canonical absolute form: rendering its segments reproduces it
and no segment is `"."` or `".."`.  `realpath` outputs and `path.resolve`
outputs have this shape. -/
def canonAbs (s : String) : Prop :=
  renderAbs (segsOf s) = s ∧ ∀ seg ∈ segsOf s, seg ≠ ['.'] ∧ seg ≠ ['.', '.']

instance (s : String) : Decidable (canonAbs s) := by
  unfold canonAbs; infer_instance

/-- The gateway's filesystem environment: the `realpath` oracle (`none`
models an `fs.realpath` rejection, e.g. ENOENT), the process working
directory used by `path.resolve`, and `os.homedir()`. -/
structure Env where
  realpath : String → Option String
  cwd : String
  homedir : String

/-- The ancestor walk of `safePath`, over the reversed segment list of the
resolved path.  `while (current !== path.dirname(current))` becomes
recursion that stops when no segment is left (i.e. `current = "/"`); on a
resolvable parent it returns `path.join(realParent, path.basename(current))`. -/
def walkUp (env : Env) : List (List Char) → Option String
  | [] => none
  | lastSeg :: revRest =>
      match env.realpath (renderAbs revRest.reverse) with
      | some realParent => some (joinAbs realParent (String.mk lastSeg))
      | none => walkUp env revRest

/-- `safePath` of `register.ts`: reject empty or NUL-containing input,
resolve to absolute form, canonicalize via `realpath`; if that fails, walk
up to the deepest existing ancestor and re-append the missing basename; if
every ancestor fails, fall through to the resolved (uncanonicalized) path. -/
def safePath (env : Env) (rawPath : String) : Option String :=
  if rawPath = "" ∨ rawPath.data.contains nulChar then none
  else
    let resolved := resolveAbs env.cwd rawPath
    match env.realpath resolved with
    | some r => some r
    | none =>
        match walkUp env (segsOf resolved).reverse with
        | some p => some p
        | none => some resolved

/-- The canonical form of an allow-list root used by the containment
checks: `fs.realpath(path.resolve(base))`, falling back to
`path.resolve(base)` when `realpath` rejects. -/
def canonBase (env : Env) (base : String) : String :=
  match env.realpath (resolveAbs env.cwd base) with
  | some r => r
  | none => resolveAbs env.cwd base

/-- `isPathAllowed` of `register.ts`: the effective roots are
`allowedPaths`, or `[os.homedir()]` when that list is empty; the target must
equal a canonicalized root or start with it followed by the separator. -/
def isPathAllowed (env : Env) (resolvedPath : String) (allowedPaths : List String) : Bool :=
  let paths := if allowedPaths.length > 0 then allowedPaths else [env.homedir]
  paths.any fun base =>
    let resolvedBase := canonBase env base
    resolvedPath = resolvedBase || strStarts resolvedPath (resolvedBase ++ "/")

/-- `isAllowedRoot` of `register.ts`: the target is exactly a canonicalized
allow-list root. -/
def isAllowedRoot (env : Env) (resolvedPath : String) (allowedPaths : List String) : Bool :=
  let paths := if allowedPaths.length > 0 then allowedPaths else [env.homedir]
  paths.any fun base => resolvedPath = canonBase env base

/-! ## The pairing-code store (`pairing.ts`)

The JS `Map<string, {token, expiresAt}>` is modelled as an insertion-ordered
association list; timestamps are integers (`Date.now()` milliseconds). -/

/-- One entry of the pairing store: code → gateway token, expiry. -/
structure PairEntry where
  code : String
  token : String
  expiresAt : Int
  deriving DecidableEq

/-- Pairing-code TTL: 5 minutes in milliseconds. -/
def PAIR_TTL_MS : Int := 5 * 60 * 1000

/-- `evictExpired`: drop every entry with `expiresAt <= now`. -/
def evictExpired (now : Int) (store : List PairEntry) : List PairEntry :=
  store.filter fun e => ¬ e.expiresAt ≤ now

/-- JS `Map.set` on an association list: replace in place if the key is
present, else append. -/
def pairSet (store : List PairEntry) (e : PairEntry) : List PairEntry :=
  if store.any (fun x => x.code = e.code) then
    store.map fun x => if x.code = e.code then e else x
  else store ++ [e]

/-- `createPairingCode`: evict expired entries, then store the freshly
generated `code` mapped to the gateway token with `expiresAt = now + 5min`.
The random code generation is abstracted into the `code` argument. -/
def createPairingCode (now : Int) (store : List PairEntry)
    (code gatewayToken : String) : List PairEntry :=
  pairSet (evictExpired now store) ⟨code, gatewayToken, now + PAIR_TTL_MS⟩

/-- `exchangePairingCode`: evict expired entries, look the code up, delete
it, and return its token; `none` for an unknown/expired/used code.  Returns
the result together with the store left behind. -/
def exchangePairingCode (now : Int) (store : List PairEntry)
    (code : String) : Option String × List PairEntry :=
  let s := evictExpired now store
  match s.find? (fun e => e.code = code) with
  | none => (none, s)
  | some e => (some e.token, s.eraseP (fun x => x.code = code))

/-! ## The session-token store (`register.ts`, second revision)

`activeTokens : Map<string, number>` maps a session token to its expiry. -/

/-- One entry of the session-token store. -/
structure TokenEntry where
  token : String
  expiresAt : Int
  deriving DecidableEq

/-- `MAX_ACTIVE_TOKENS` of `register.ts`. -/
def MAX_ACTIVE_TOKENS : Nat := 200

/-- `TOKEN_TTL_MS`: 24 hours in milliseconds. -/
def TOKEN_TTL_MS : Int := 24 * 60 * 60 * 1000

/-- The scan `for (const [k, v] of activeTokens) if (v < oldestExp) ...`:
fold that keeps the first entry with the strictly smallest `expiresAt`
(starting from `oldestExp = Infinity`, so the first entry always wins). -/
def findOldest (tokens : List TokenEntry) : Option TokenEntry :=
  tokens.foldl
    (fun acc e =>
      match acc with
      | none => some e
      | some b => if e.expiresAt < b.expiresAt then some e else some b)
    none

/-- The capacity-eviction block of the exchange endpoint: delete the entry
found by the minimum scan (`if (oldestKey) activeTokens.delete(oldestKey)`;
the guard is JS truthiness, so an empty-string key would be skipped). -/
def evictOldestToken (tokens : List TokenEntry) : List TokenEntry :=
  match findOldest tokens with
  | none => tokens
  | some m =>
      if m.token = "" then tokens
      else tokens.eraseP fun e => e.token = m.token

/-- JS `Map.set` on the token store. -/
def tokenSet (tokens : List TokenEntry) (e : TokenEntry) : List TokenEntry :=
  if tokens.any (fun x => x.token = e.token) then
    tokens.map fun x => if x.token = e.token then e else x
  else tokens ++ [e]

/-- Issuing a session credential on a successful exchange: evict the oldest
entry when at capacity, then insert the new token with a 24h TTL.  The
random token generation is abstracted into the `sessionToken` argument. -/
def issueSessionToken (now : Int) (tokens : List TokenEntry)
    (sessionToken : String) : List TokenEntry :=
  let t1 := if tokens.length ≥ MAX_ACTIVE_TOKENS then evictOldestToken tokens else tokens
  tokenSet t1 ⟨sessionToken, now + TOKEN_TTL_MS⟩

/-! ## CORS origin derivation (`registerAll`) -/

/-- The `corsOrigin` computation of `registerAll`: `"*"` when `externalUrl`
is unset or empty, otherwise `new URL(externalUrl).origin`, falling back to
the raw configured string when URL parsing throws.  URL parsing is
abstracted as the oracle `urlOrigin`. -/
def deriveCorsOrigin (urlOrigin : String → Option String)
    (externalUrl : Option String) : String :=
  match externalUrl with
  | none => "*"
  | some u =>
      if u = "" then "*"
      else
        match urlOrigin u with
        | some o => o
        | none => u

/-- `jsonResponse` as far as headers are concerned: every JSON response
carries `Access-Control-Allow-Origin: corsOrigin`. -/
structure JsonResponseHead where
  status : Nat
  accessControlAllowOrigin : String
  deriving DecidableEq

/-- The headers `jsonResponse(res, status, data, corsOrigin)` sets. -/
def jsonResponseHead (status : Nat) (corsOrigin : String) : JsonResponseHead :=
  ⟨status, corsOrigin⟩

/-! ## The authenticated endpoint handlers (`registerAll`)

Each handler is modelled as a function from the request parameters to the
HTTP status it answers and the list of FileOps/SearchEngine invocations it
performs.  Post-authorization I/O outcomes (stat results, read errors, ...)
are abstracted into a status oracle `io : FsOp → Nat`; what matters for the
security claims is which operations run and on which canonicalized paths. -/

/-- A FileOps or SearchEngine invocation, tagged with its target path. -/
inductive FsOp where
  | listDir (p : String)
  | readFile (p : String)
  | writeFile (p : String)
  | makeDir (p : String)
  | removeR (p : String)
  | uploadWrite (p : String)
  | searchIn (p : String)
  deriving DecidableEq

/-- The canonicalized path an operation executes against. -/
def FsOp.target : FsOp → String
  | .listDir p => p
  | .readFile p => p
  | .writeFile p => p
  | .makeDir p => p
  | .removeR p => p
  | .uploadWrite p => p
  | .searchIn p => p

/-- JS `x || dflt` on an optional query parameter (`""` is falsy). -/
def jsOr (x : Option String) (dflt : String) : String :=
  match x with
  | none => dflt
  | some s => if s = "" then dflt else s

/-- A handler outcome: HTTP status plus performed operations. -/
abbrev HResult := Nat × List FsOp

/-- `GET /api/ls?path=`: guard with `safePath` / `isPathAllowed` (403 on
failure), then run the listing. -/
def lsHandler (env : Env) (allowed : List String) (io : FsOp → Nat)
    (pathParam : Option String) : HResult :=
  match safePath env (jsOr pathParam "/") with
  | none => (403, [])
  | some dirPath =>
      if isPathAllowed env dirPath allowed then
        (io (.listDir dirPath), [.listDir dirPath])
      else (403, [])

/-- `GET /api/read?path=`. -/
def readHandler (env : Env) (allowed : List String) (io : FsOp → Nat)
    (pathParam : Option String) : HResult :=
  match safePath env (jsOr pathParam "") with
  | none => (403, [])
  | some filePath =>
      if isPathAllowed env filePath allowed then
        (io (.readFile filePath), [.readFile filePath])
      else (403, [])

/-- `POST /api/write {path, content}`: 400 when the canonicalized path is
null or the content field is missing, 403 on containment failure. -/
def writeHandler (env : Env) (allowed : List String) (io : FsOp → Nat)
    (bodyPath bodyContent : Option String) : HResult :=
  match safePath env (bodyPath.getD ""), bodyContent with
  | none, _ => (400, [])
  | some _, none => (400, [])
  | some filePath, some _ =>
      if isPathAllowed env filePath allowed then
        (io (.writeFile filePath), [.writeFile filePath])
      else (403, [])

/-- `POST /api/mkdir {path}`: 400 on a null canonicalized path, 403 on
containment failure. -/
def mkdirHandler (env : Env) (allowed : List String) (io : FsOp → Nat)
    (bodyPath : Option String) : HResult :=
  match safePath env (bodyPath.getD "") with
  | none => (400, [])
  | some dirPath =>
      if isPathAllowed env dirPath allowed then
        (io (.makeDir dirPath), [.makeDir dirPath])
      else (403, [])

/-- `DELETE /api/delete?path=`: 400 on a null canonicalized path, 403 on
containment failure, 403 when the target is an allow-listed root itself. -/
def deleteHandler (env : Env) (allowed : List String) (io : FsOp → Nat)
    (pathParam : Option String) : HResult :=
  match safePath env (jsOr pathParam "") with
  | none => (400, [])
  | some targetPath =>
      if isPathAllowed env targetPath allowed then
        if isAllowedRoot env targetPath allowed then (403, [])
        else (io (.removeR targetPath), [.removeR targetPath])
      else (403, [])

/-- The filename validation of the upload endpoint: `!fileName ||
fileName.includes("/") || fileName.includes("\\") || fileName.includes("\0")
|| fileName === ".." || fileName === "."`. -/
def badUploadName (n : String) : Bool :=
  n = "" || n.data.contains '/' || n.data.contains '\\' ||
    n.data.contains nulChar || n = ".." || n = "."

/-- The body-streaming outcome of an upload request. -/
inductive UploadBody where
  | ok
  | tooLarge
  | errored
  deriving DecidableEq

/-- `POST /api/upload?dir=&name=`: 400 on a null canonicalized dir or a bad
filename; 403 when the joined path cannot be canonicalized or is not
allowed; 413/500 on body overflow/stream error; otherwise the write runs. -/
def uploadHandler (env : Env) (allowed : List String) (io : FsOp → Nat)
    (dirParam nameParam : Option String) (body : UploadBody) : HResult :=
  let fileName := jsOr nameParam ""
  match safePath env (jsOr dirParam "") with
  | none => (400, [])
  | some targetDir =>
      if badUploadName fileName then (400, [])
      else
        match safePath env (joinAbs targetDir fileName) with
        | none => (403, [])
        | some filePath =>
            if isPathAllowed env filePath allowed then
              match body with
              | .tooLarge => (413, [])
              | .errored => (500, [])
              | .ok => (io (.uploadWrite filePath), [.uploadWrite filePath])
            else (403, [])

/-- `GET /api/search?path=&q=`: 403 on guard failure, 400 on an
out-of-range (trimmed) query length, otherwise the search runs. -/
def searchHandler (env : Env) (allowed : List String) (io : FsOp → Nat)
    (pathParam qParam : Option String) : HResult :=
  let query := (jsOr qParam "").trim
  match safePath env (jsOr pathParam "/") with
  | none => (403, [])
  | some basePath =>
      if isPathAllowed env basePath allowed then
        if query.length < 1 ∨ query.length > 256 then (400, [])
        else (io (.searchIn basePath), [.searchIn basePath])
      else (403, [])

/-- Every operation a handler performed targets an allow-listed path. -/
def effectsAllowed (env : Env) (allowed : List String) (r : HResult) : Prop :=
  ∀ op ∈ r.2, isPathAllowed env op.target allowed = true

/-! ## The search engine (`searchFiles`)

The recursive `walk` of `searchFiles` is embedded with an explicit fuel
parameter: the JS function recurses without any structural bound, so fuel
exhaustion (`none`) is the shallow-embedding marker for non-termination.
The termination claim then becomes: a fuel budget determined by `maxDepth`
alone — independent of the filesystem, symlink cycles included — always
suffices. -/

/-- A `fs.Dirent` as used by `searchFiles`. -/
structure SEntry where
  name : String
  isDirectory : Bool
  deriving DecidableEq

/-- The filesystem as seen by `searchFiles`: `realpath` (for the
visited-set) and `readdir` (`none` models a thrown error). -/
structure SearchFs where
  realpath : String → Option String
  readdir : String → Option (List SEntry)

/-- One search result `{path, name, isDir}`. -/
structure SearchResult where
  path : String
  name : String
  isDir : Bool
  deriving DecidableEq

/-- The mutable state of one `searchFiles` invocation: the `results`
accumulator and the per-invocation `visited` set of canonical real paths. -/
structure SState where
  results : List SearchResult
  visited : List String
  deriving DecidableEq

/-- JS `hay.includes(needle)` on character lists. -/
def hasInfix (hay needle : List Char) : Bool :=
  match hay with
  | [] => needle.isEmpty
  | _ :: t => needle.isPrefixOf hay || hasInfix t needle

/-- JS `toLowerCase`, as a per-character map. -/
def strLower (s : String) : String := String.mk (s.data.map Char.toLower)

/-- The match test `e.name.toLowerCase().includes(lowerQuery)`. -/
def nameMatches (name lowerQuery : String) : Bool :=
  hasInfix (strLower name).data lowerQuery.data

/-- Processing one entry's match test: push
`{path: join(dir, e.name), name: e.name, isDir: e.isDirectory()}` when the
lower-cased name contains the lower-cased query. -/
def stepResult (lq dir : String) (e : SEntry) (st : SState) : SState :=
  if nameMatches e.name lq then
    ⟨st.results ++ [⟨joinAbs dir e.name, e.name, e.isDirectory⟩], st.visited⟩
  else st

/-- The `for (const e of entries)` loop body of `walk`.  `recur` is the
recursive `walk` call one level deeper. -/
def loopGo (lq : String) (mr : Nat)
    (recur : Nat → String → SState → Option SState) (depth : Nat)
    (dir : String) : List SEntry → SState → Option SState
  | [], st => some st
  | e :: rest, st =>
      if st.results.length ≥ mr then some st
      else if strStarts e.name "." then loopGo lq mr recur depth dir rest st
      else if e.isDirectory then
        match recur (depth + 1) (joinAbs dir e.name) (stepResult lq dir e st) with
        | none => none
        | some st2 => loopGo lq mr recur depth dir rest st2
      else loopGo lq mr recur depth dir rest (stepResult lq dir e st)

/-- One level of `walk`: the depth/result guards, the cycle check against
the visited-set, and the directory read. -/
def walkLevel (fs : SearchFs) (lq : String) (mr md : Nat)
    (recur : Nat → String → SState → Option SState) (depth : Nat)
    (dir : String) (st : SState) : Option SState :=
  if depth > md ∨ st.results.length ≥ mr then some st
  else
    match fs.realpath dir with
    | none => some st
    | some realDir =>
        if realDir ∈ st.visited then some st
        else
          match fs.readdir dir with
          | none => some ⟨st.results, realDir :: st.visited⟩
          | some entries =>
              loopGo lq mr recur depth dir entries
                ⟨st.results, realDir :: st.visited⟩

/-- The fuelled `walk`.  `none` marks fuel exhaustion. -/
def walkF (fs : SearchFs) (lq : String) (mr md : Nat) :
    Nat → Nat → String → SState → Option SState
  | 0, _, _, _ => none
  | fuel + 1, depth, dir, st =>
      walkLevel fs lq mr md (walkF fs lq mr md fuel) depth dir st

/-- `searchFiles(basePath, query, maxResults, maxDepth)`: run `walk` at the
root with the lower-cased query and fresh state; fuel `maxDepth + 2` is
proven sufficient below. -/
def searchFiles (fs : SearchFs) (basePath query : String)
    (maxResults maxDepth : Nat) : List SearchResult :=
  ((walkF fs (strLower query) maxResults maxDepth (maxDepth + 2) 0 basePath
      ⟨[], []⟩).getD ⟨[], []⟩).results

/-! ## Concrete environments used by witnesses and counterexamples -/

/-- An environment whose `realpath` resolves every path to itself. -/
def envId : Env := ⟨fun s => some s, "/", "/root"⟩

/-- An environment whose `realpath` always fails (nothing resolvable). -/
def envNone : Env := ⟨fun _ => none, "/", "/root"⟩

/-- An environment where only `/data` exists on disk. -/
def envData : Env :=
  ⟨fun s => if s = "/data" then some s else none, "/", "/root"⟩

/-- A status oracle that reports success for every executed operation. -/
def ioOk : FsOp → Nat := fun _ => 200

/-- A pairing store holding 100 live (unexpired at time 0) codes. -/
def pairStore100 : List PairEntry :=
  (List.range 100).map fun i => ⟨"c" ++ toString i, "gw", 1⟩

/-- A 300-character filename, past any reasonable filename length limit. -/
def longName : String := String.mk (List.replicate 300 'a')

/-- A session-token store filled to capacity with 200 distinct tokens. -/
def tokens200 : List TokenEntry :=
  (List.range 200).map fun i => ⟨"t" ++ toString i, (i : Int)⟩

/-- A filesystem with a symlink cycle: `/a/link` resolves back to `/a`. -/
def cycFs : SearchFs :=
  ⟨fun s => if s = "/a" ∨ s = "/a/link" then some "/a" else none,
   fun s => if s = "/a" ∨ s = "/a/link" then some [⟨"link", true⟩] else none⟩

/-- The path-prefix every result of a search rooted at `base` must carry:
`base + "/"`, except that the filesystem root is its own prefix. -/
def extBase (base : String) : String := if base = "/" then "/" else base ++ "/"

/-- A filesystem whose directory entries carry real `Dirent` names:
nonempty and free of the path separator. -/
def ValidFs (fs : SearchFs) : Prop :=
  ∀ p l, fs.readdir p = some l → ∀ e ∈ l, e.name.data ≠ [] ∧ '/' ∉ e.name.data

/-- The per-result property of C10: the name matches the lower-cased query,
is not hidden, and the path sits strictly inside the searched subtree. -/
def resultOk (base lq : String) (r : SearchResult) : Prop :=
  nameMatches r.name lq = true ∧ strStarts r.name "." = false ∧
    strStarts r.path (extBase base) = true ∧ r.path ≠ base

/-- The walk-invariant on the current directory: canonical, and equal to
the base or strictly below it. -/
def dirOk (base dir : String) : Prop :=
  canonAbs dir ∧ (dir = base ∨ (strStarts dir (extBase base) = true ∧ dir ≠ base))

/-- A filesystem whose root `/` lists a single entry `x`. -/
def rootFs : SearchFs :=
  ⟨fun s => if s = "/" then some "/" else none,
   fun s => if s = "/" then some [⟨"x", false⟩] else none⟩

/-- A flat filesystem: every directory lists the single file `x`. -/
def flatFs : SearchFs := ⟨fun s => some s, fun _ => some [⟨"x", false⟩]⟩

/-! ## C2 — containment check -/

/-- C2: `isPathAllowed(P, [R])` returns true iff `P` equals the
canonicalized root (realpath of the resolved root, falling back to the
resolved root) or starts with it followed by the separator; and whenever
the single root `/home` canonicalizes to itself, `/home2` is not contained. -/
theorem isPathAllowed_iff_eq_or_sep :
    (∀ (env : Env) (R P : String),
        isPathAllowed env P [R] = true ↔
          (P = canonBase env R ∨ strStarts P (canonBase env R ++ "/") = true))
    ∧ ∀ env : Env, canonBase env "/home" = "/home" →
        isPathAllowed env "/home2" ["/home"] = false := by
  constructor
  · intro env R P
    simp [isPathAllowed]
  · intro env h
    simp [isPathAllowed, h]
    decide

/-- Witness for C2 at a concrete environment: with an identity `realpath`,
`/home` canonicalizes to itself and `/home2` is rejected. -/
theorem isPathAllowed_iff_eq_or_sep_witness :
    canonBase envId "/home" = "/home" ∧
      isPathAllowed envId "/home2" ["/home"] = false :=
  ⟨rfl, isPathAllowed_iff_eq_or_sep.2 envId rfl⟩

/-! ## C9 — CORS origin fallback -/

/-- C9 counterexample: with no external URL configured, the gateway does
not reject cross-origin requests — `corsOrigin` stays the permissive
wildcard and every JSON response carries `Access-Control-Allow-Origin: *`. -/
theorem corsOrigin_unset_is_wildcard :
    deriveCorsOrigin (fun _ => none) none = "*" ∧
      (jsonResponseHead 200
          (deriveCorsOrigin (fun _ => none) none)).accessControlAllowOrigin
        = "*" :=
  ⟨rfl, rfl⟩

/-- C9 amended: with `externalUrl` unset or empty the derived CORS origin
is the wildcard `"*"`; with a configured URL it is the parsed origin, or
the raw configured string when parsing fails; `jsonResponse` stamps exactly
that value on the response. -/
theorem corsOrigin_spec (urlOrigin : String → Option String) :
    deriveCorsOrigin urlOrigin none = "*" ∧
      deriveCorsOrigin urlOrigin (some "") = "*" ∧
      (∀ u o, u ≠ "" → urlOrigin u = some o →
          deriveCorsOrigin urlOrigin (some u) = o) ∧
      (∀ u, u ≠ "" → urlOrigin u = none →
          deriveCorsOrigin urlOrigin (some u) = u) ∧
      ∀ s c, (jsonResponseHead s c).accessControlAllowOrigin = c := by
  refine ⟨rfl, rfl, ?_, ?_, fun s c => rfl⟩
  · intro u o hu ho
    simp [deriveCorsOrigin, hu, ho]
  · intro u hu ho
    simp [deriveCorsOrigin, hu, ho]

/-- Witness for C9 (amended) at a concrete parser and URL. -/
theorem corsOrigin_spec_witness :
    ("https://h.example" ≠ "" ∧
        (fun u => if u = "https://h.example" then some "https://h.example"
          else none) "https://h.example" = some "https://h.example") ∧
      deriveCorsOrigin
          (fun u => if u = "https://h.example" then some "https://h.example"
            else none)
          (some "https://h.example") = "https://h.example" :=
  ⟨⟨by decide, by decide⟩,
    (corsOrigin_spec _).2.2.1 "https://h.example" "https://h.example"
      (by decide) (by decide)⟩

/-! ## C3 — safePath on a fully unresolvable ancestor chain -/

/-- When `realpath` fails everywhere, the ancestor walk finds nothing. -/
theorem walkUp_none (env : Env) (h : ∀ p, env.realpath p = none) :
    ∀ segs, walkUp env segs = none := by
  intro segs
  induction segs with
  | nil => rfl
  | cons s t ih => simp [walkUp, h, ih]

/-- C3: `safePath` does not fail closed on an entirely unresolvable
ancestor chain — when no ancestor up to the filesystem root can be
canonicalized, it returns the resolved-but-uncanonicalized path instead of
`null`.  Concretely, `safePath("/missing/child")` on a filesystem where
every `realpath` call fails yields `/missing/child`, not `null`. -/
theorem safePath_unresolvable_returns_resolved :
    (∀ (env : Env) (raw : String), (∀ p, env.realpath p = none) →
        raw ≠ "" → raw.data.contains nulChar = false →
        safePath env raw = some (resolveAbs env.cwd raw))
    ∧ safePath envNone "/missing/child" = some "/missing/child"
    ∧ safePath envNone "/missing/child" ≠ none := by
  refine ⟨?_, rfl, by decide⟩
  intro env raw hfs h1 h2
  have h3 : nulChar ∉ raw.data := by simpa using h2
  simp [safePath, hfs, walkUp_none env hfs, h1, h3]

/-- Witness for C3's general part at the concrete all-failing environment. -/
theorem safePath_unresolvable_witness :
    (∀ p, envNone.realpath p = none) ∧
      safePath envNone "/x/y/z" = some (resolveAbs envNone.cwd "/x/y/z") :=
  ⟨fun _ => rfl,
    safePath_unresolvable_returns_resolved.1 envNone "/x/y/z" (fun _ => rfl)
      (by decide) (by decide)⟩

/-! ## C5 — pairing store capacity -/

/-- C5: the pairing store is not capacity-bounded.  With 100 live codes
already stored, `createPairingCode` evicts nothing (only expired entries
are purged) and the store grows to 101 entries, exceeding the documented
maximum of 100. -/
theorem createPairingCode_no_capacity_bound :
    pairStore100.length = 100 ∧
      (∀ e ∈ pairStore100, ¬ e.expiresAt ≤ 0) ∧
      (createPairingCode 0 pairStore100 "freshcode" "gw").length = 101 := by
  refine ⟨by decide, by decide, by decide⟩

/-! ## C4 — single-use, TTL-bounded pairing codes -/

/-- With duplicate-free codes, `find?` on the code of a member returns
exactly that member. -/
theorem pair_find_of_mem (l : List PairEntry) (e : PairEntry)
    (hnd : (l.map fun x => x.code).Nodup) (hm : e ∈ l) :
    l.find? (fun x => x.code = e.code) = some e := by
  induction l with
  | nil => cases hm
  | cons a t ih =>
      rcases List.mem_cons.mp hm with h | h
      · subst h
        simp [List.find?]
      · have hne : a.code ≠ e.code := by
          intro hc
          have : e.code ∈ t.map fun x => x.code := List.mem_map_of_mem _ h
          rw [← hc] at this
          exact (List.nodup_cons.mp hnd).1 this
        simp only [List.map_cons, List.nodup_cons] at hnd
        simp [List.find?, hne, ih hnd.2 h]

/-- With duplicate-free codes, erasing the first entry with a given code
leaves no entry with that code behind. -/
theorem pair_eraseP_code (l : List PairEntry) (c : String)
    (hnd : (l.map fun x => x.code).Nodup) :
    ∀ x ∈ l.eraseP (fun x => x.code = c), x.code ≠ c := by
  induction l with
  | nil => simp [List.eraseP]
  | cons a t ih =>
      simp only [List.map_cons, List.nodup_cons] at hnd
      by_cases ha : a.code = c
      · rw [List.eraseP_cons, show (decide (a.code = c)) = true by simp [ha]]
        intro x hx hxc
        exact hnd.1 (by rw [ha, ← hxc]; exact List.mem_map_of_mem _ hx)
      · rw [List.eraseP_cons, show (decide (a.code = c)) = false by simp [ha]]
        intro x hx
        rcases List.mem_cons.mp (by simpa using hx) with h | h
        · subst h; exact ha
        · exact ih hnd.2 x h

/-- Redemption reports invalid whenever every entry carrying the code is
already expired (in particular when no entry carries it at all): the lazy
purge removes them before the lookup. -/
theorem exchange_none_of_expired (now : Int) (l : List PairEntry) (c : String)
    (h : ∀ x ∈ l, x.code = c → x.expiresAt ≤ now) :
    (exchangePairingCode now l c).1 = none := by
  have hf : (evictExpired now l).find? (fun x => x.code = c) = none := by
    rw [List.find?_eq_none]
    intro x hx
    have hx2 := List.mem_filter.mp hx
    intro hc
    exact absurd (h x hx2.1 (by simpa using hc)) (by simpa using hx2.2)
  simp [exchangePairingCode, hf]

/-- `Map.set` semantics: any entry of the updated store carrying the new
entry's key is the new entry itself. -/
theorem pairSet_code_eq (l : List PairEntry) (e : PairEntry) :
    ∀ x ∈ pairSet l e, x.code = e.code → x = e := by
  unfold pairSet
  by_cases hany : l.any fun x => x.code = e.code
  · rw [if_pos hany]
    intro x hx
    rcases List.mem_map.mp hx with ⟨y, _, hy⟩
    by_cases hyc : y.code = e.code
    · rw [if_pos hyc] at hy
      intro _; exact hy.symm
    · rw [if_neg hyc] at hy
      intro hxc
      exact absurd (hy ▸ hxc) hyc
  · rw [if_neg hany]
    intro x hx hxc
    rcases List.mem_append.mp hx with h | h
    · exfalso
      exact hany (List.any_eq_true.mpr ⟨x, h, by simp [hxc]⟩)
    · simpa using h

/-- C4: a pairing code is redeemable exactly once and only before its TTL:
the first redemption of a live code returns the stored seed and removes
the entry; a second redemption of the same code returns the invalid signal;
and any redemption at or after `issuance + 5min` returns the invalid
signal even if the code was never used. -/
theorem exchangePairingCode_single_use :
    (∀ (now : Int) (s : List PairEntry) (c : String) (e : PairEntry),
        (s.map fun x => x.code).Nodup → e ∈ s → e.code = c →
        now < e.expiresAt →
          (exchangePairingCode now s c).1 = some e.token ∧
          (∀ x ∈ (exchangePairingCode now s c).2, x.code ≠ c) ∧
          ∀ now2, (exchangePairingCode now2 (exchangePairingCode now s c).2 c).1 = none)
    ∧ ∀ (t0 : Int) (s0 : List PairEntry) (c gw : String) (now2 : Int),
        t0 + PAIR_TTL_MS ≤ now2 →
          (exchangePairingCode now2 (createPairingCode t0 s0 c gw) c).1 = none := by
  constructor
  · intro now s c e hnd hm hc hlive
    have hmem : e ∈ evictExpired now s :=
      List.mem_filter.mpr ⟨hm, by simp [Int.not_le.mpr hlive]⟩
    have hnd2 : ((evictExpired now s).map fun x => x.code).Nodup :=
      ((List.filter_sublist s).map _).nodup hnd
    have hfind : (evictExpired now s).find? (fun x => x.code = c) = some e := by
      rw [← hc]; exact pair_find_of_mem _ e hnd2 hmem
    have hres : exchangePairingCode now s c =
        (some e.token, (evictExpired now s).eraseP fun x => x.code = c) := by
      simp [exchangePairingCode, hfind]
    have herase : ∀ x ∈ (exchangePairingCode now s c).2, x.code ≠ c := by
      rw [hres]
      exact pair_eraseP_code _ _ hnd2
    refine ⟨by rw [hres], herase, ?_⟩
    intro now2
    exact exchange_none_of_expired now2 _ c fun x hx hxc => absurd hxc (herase x hx)
  · intro t0 s0 c gw now2 h
    apply exchange_none_of_expired
    intro x hx hxc
    have hx2 : x = ⟨c, gw, t0 + PAIR_TTL_MS⟩ := by
      apply pairSet_code_eq _ _ x hx
      simpa using hxc
    rw [hx2]
    exact h

/-- Witness for C4 at a concrete store: one live code redeems to its seed,
and a code created at time 0 is invalid at its 5-minute expiry. -/
theorem exchangePairingCode_single_use_witness :
    ((([⟨"code1", "seed1", 100⟩] : List PairEntry).map fun x => x.code).Nodup ∧
        (⟨"code1", "seed1", 100⟩ : PairEntry) ∈
          ([⟨"code1", "seed1", 100⟩] : List PairEntry) ∧
        (0 : Int) < 100 ∧ (0 : Int) + PAIR_TTL_MS ≤ PAIR_TTL_MS) ∧
      (exchangePairingCode 0 [⟨"code1", "seed1", 100⟩] "code1").1 = some "seed1" ∧
      (exchangePairingCode PAIR_TTL_MS (createPairingCode 0 [] "p" "g") "p").1
        = none :=
  ⟨⟨by decide, by decide, by decide, by decide⟩,
    (exchangePairingCode_single_use.1 0 [⟨"code1", "seed1", 100⟩] "code1"
        ⟨"code1", "seed1", 100⟩ (by decide) (by decide) rfl (by decide)).1,
    exchangePairingCode_single_use.2 0 [] "p" "g" PAIR_TTL_MS (by decide)⟩

/-! ## C7 — capacity eviction in the session-token store -/

/-- The minimum scan: starting from `b`, the fold returns an entry that is
`b` or a list member and is `≤` both `b` and every list member. -/
theorem foldl_min_spec (l : List TokenEntry) :
    ∀ b : TokenEntry,
      ∃ m, l.foldl
          (fun acc e =>
            match acc with
            | none => some e
            | some b' => if e.expiresAt < b'.expiresAt then some e else some b')
          (some b) = some m ∧
        (m = b ∨ m ∈ l) ∧ m.expiresAt ≤ b.expiresAt ∧
        ∀ e ∈ l, m.expiresAt ≤ e.expiresAt := by
  induction l with
  | nil => exact fun b => ⟨b, rfl, Or.inl rfl, le_refl _, by simp⟩
  | cons a t ih =>
      intro b
      by_cases hab : a.expiresAt < b.expiresAt
      · obtain ⟨m, hm, hmem, hle, hall⟩ := ih a
        refine ⟨m, by simpa [List.foldl_cons, hab] using hm, ?_, ?_, ?_⟩
        · rcases hmem with h | h
          · exact Or.inr (h ▸ List.mem_cons_self a t)
          · exact Or.inr (List.mem_cons_of_mem a h)
        · exact le_trans hle (le_of_lt hab)
        · intro e he
          rcases List.mem_cons.mp he with h | h
          · exact h ▸ hle
          · exact hall e h
      · obtain ⟨m, hm, hmem, hle, hall⟩ := ih b
        refine ⟨m, by simpa [List.foldl_cons, hab] using hm, ?_, hle, ?_⟩
        · rcases hmem with h | h
          · exact Or.inl h
          · exact Or.inr (List.mem_cons_of_mem a h)
        · intro e he
          rcases List.mem_cons.mp he with h | h
          · exact h ▸ le_trans hle (not_lt.mp hab)
          · exact hall e h

/-- `findOldest` of a nonempty store returns a member with minimal
`expiresAt`. -/
theorem findOldest_spec (a : TokenEntry) (t : List TokenEntry) :
    ∃ m, findOldest (a :: t) = some m ∧ m ∈ a :: t ∧
      ∀ e ∈ a :: t, m.expiresAt ≤ e.expiresAt := by
  obtain ⟨m, hm, hmem, hle, hall⟩ := foldl_min_spec t a
  refine ⟨m, by simpa [findOldest, List.foldl_cons] using hm, ?_, ?_⟩
  · rcases hmem with h | h
    · exact h ▸ List.mem_cons_self a t
    · exact List.mem_cons_of_mem a h
  · intro e he
    rcases List.mem_cons.mp he with h | h
    · exact h ▸ hle
    · exact hall e h

/-- C7: at capacity (200 or more stored tokens, all with the nonempty
random token strings the store actually holds), issuing a new session
credential deletes exactly one entry — one with the globally smallest
`expiresAt`, found by the minimum scan — and then appends the fresh token
with a 24-hour TTL, leaving the store size unchanged. -/
theorem issueSessionToken_evicts_min (now : Int) (tokens : List TokenEntry)
    (newTok : String) (hcap : MAX_ACTIVE_TOKENS ≤ tokens.length)
    (hne : ∀ e ∈ tokens, e.token ≠ "")
    (hfresh : ∀ e ∈ tokens, e.token ≠ newTok) :
    ∃ m, findOldest tokens = some m ∧ m ∈ tokens ∧
      (∀ e ∈ tokens, m.expiresAt ≤ e.expiresAt) ∧
      issueSessionToken now tokens newTok =
        (tokens.eraseP fun e => e.token = m.token) ++
          [⟨newTok, now + TOKEN_TTL_MS⟩] ∧
      (issueSessionToken now tokens newTok).length = tokens.length := by
  obtain ⟨a, t, rfl⟩ : ∃ a t, tokens = a :: t := by
    cases tokens with
    | nil => simp [MAX_ACTIVE_TOKENS] at hcap
    | cons a t => exact ⟨a, t, rfl⟩
  obtain ⟨m, hm, hmem, hall⟩ := findOldest_spec a t
  have hmt : m.token ≠ "" := hne m hmem
  have hev : evictOldestToken (a :: t) =
      (a :: t).eraseP fun e => e.token = m.token := by
    simp [evictOldestToken, hm, hmt]
  have hsub : ((a :: t).eraseP fun e => e.token = m.token).Sublist (a :: t) :=
    List.eraseP_sublist _
  have hnofresh : ¬ (((a :: t).eraseP fun e => e.token = m.token).any
      fun x => x.token = newTok) := by
    rw [List.any_eq_true]
    rintro ⟨x, hx, hxe⟩
    exact hfresh x (hsub.mem hx) (by simpa using hxe)
  have hiss : issueSessionToken now (a :: t) newTok =
      ((a :: t).eraseP fun e => e.token = m.token) ++
        [⟨newTok, now + TOKEN_TTL_MS⟩] := by
    have hlen : (a :: t).length ≥ MAX_ACTIVE_TOKENS := hcap
    unfold issueSessionToken
    rw [if_pos hlen, hev]
    unfold tokenSet
    rw [if_neg hnofresh]
  have hermlen : ((a :: t).eraseP fun e => e.token = m.token).length + 1 =
      (a :: t).length := by
    rw [List.length_eraseP_of_mem hmem (by simp)]
    have : 0 < (a :: t).length := by simp
    omega
  refine ⟨m, hm, hmem, hall, hiss, ?_⟩
  rw [hiss]
  simpa using hermlen

set_option maxRecDepth 10000

/-- Witness for C7 at the concrete full store `tokens200`. -/
theorem issueSessionToken_evicts_min_witness :
    (MAX_ACTIVE_TOKENS ≤ tokens200.length ∧ (∀ e ∈ tokens200, e.token ≠ "") ∧
        ∀ e ∈ tokens200, e.token ≠ "fresh") ∧
      ∃ m, findOldest tokens200 = some m ∧ m ∈ tokens200 ∧
        (∀ e ∈ tokens200, m.expiresAt ≤ e.expiresAt) ∧
        issueSessionToken 0 tokens200 "fresh" =
          (tokens200.eraseP fun e => e.token = m.token) ++
            [⟨"fresh", 0 + TOKEN_TTL_MS⟩] ∧
        (issueSessionToken 0 tokens200 "fresh").length = tokens200.length :=
  ⟨⟨by decide, by decide, by decide⟩,
    issueSessionToken_evicts_min 0 tokens200 "fresh" (by decide) (by decide)
      (by decide)⟩

/-! ## C1 — the gateway guard: no operation outside the allow-list -/

/-- C1 (amended): for every authenticated request to ls, read, write,
mkdir, delete, upload, or search, a null canonicalized target is answered
with no filesystem operation — 403 for ls/read/search, 400 for
write/mkdir/delete/upload; a canonicalized target outside the allow-list is
answered 403 with no filesystem operation; and every FileOps/SearchEngine
invocation any handler performs targets a path that passed `isPathAllowed`. -/
theorem gateway_guards :
    ∀ (env : Env) (allowed : List String) (io : FsOp → Nat),
      (∀ pp, safePath env (jsOr pp "/") = none →
          lsHandler env allowed io pp = (403, []))
    ∧ (∀ pp p, safePath env (jsOr pp "/") = some p →
          isPathAllowed env p allowed = false →
          lsHandler env allowed io pp = (403, []))
    ∧ (∀ pp, effectsAllowed env allowed (lsHandler env allowed io pp))
    ∧ (∀ pp, safePath env (jsOr pp "") = none →
          readHandler env allowed io pp = (403, []))
    ∧ (∀ pp p, safePath env (jsOr pp "") = some p →
          isPathAllowed env p allowed = false →
          readHandler env allowed io pp = (403, []))
    ∧ (∀ pp, effectsAllowed env allowed (readHandler env allowed io pp))
    ∧ (∀ bp bc, safePath env (bp.getD "") = none →
          writeHandler env allowed io bp bc = (400, []))
    ∧ (∀ bp c p, safePath env (bp.getD "") = some p →
          isPathAllowed env p allowed = false →
          writeHandler env allowed io bp (some c) = (403, []))
    ∧ (∀ bp bc, effectsAllowed env allowed (writeHandler env allowed io bp bc))
    ∧ (∀ bp, safePath env (bp.getD "") = none →
          mkdirHandler env allowed io bp = (400, []))
    ∧ (∀ bp p, safePath env (bp.getD "") = some p →
          isPathAllowed env p allowed = false →
          mkdirHandler env allowed io bp = (403, []))
    ∧ (∀ bp, effectsAllowed env allowed (mkdirHandler env allowed io bp))
    ∧ (∀ pp, safePath env (jsOr pp "") = none →
          deleteHandler env allowed io pp = (400, []))
    ∧ (∀ pp p, safePath env (jsOr pp "") = some p →
          isPathAllowed env p allowed = false →
          deleteHandler env allowed io pp = (403, []))
    ∧ (∀ pp, effectsAllowed env allowed (deleteHandler env allowed io pp))
    ∧ (∀ dp np b, safePath env (jsOr dp "") = none →
          uploadHandler env allowed io dp np b = (400, []))
    ∧ (∀ dp np b td fp, safePath env (jsOr dp "") = some td →
          badUploadName (jsOr np "") = false →
          safePath env (joinAbs td (jsOr np "")) = some fp →
          isPathAllowed env fp allowed = false →
          uploadHandler env allowed io dp np b = (403, []))
    ∧ (∀ dp np b, effectsAllowed env allowed (uploadHandler env allowed io dp np b))
    ∧ (∀ pp qp, safePath env (jsOr pp "/") = none →
          searchHandler env allowed io pp qp = (403, []))
    ∧ (∀ pp qp p, safePath env (jsOr pp "/") = some p →
          isPathAllowed env p allowed = false →
          searchHandler env allowed io pp qp = (403, []))
    ∧ ∀ pp qp, effectsAllowed env allowed (searchHandler env allowed io pp qp) := by
  intro env allowed io
  refine ⟨?_, ?_, ?_, ?_, ?_, ?_, ?_, ?_, ?_, ?_, ?_, ?_, ?_, ?_, ?_, ?_, ?_,
    ?_, ?_, ?_, ?_⟩
  · intro pp h; simp [lsHandler, h]
  · intro pp p h hna; simp [lsHandler, h, hna]
  · intro pp
    unfold effectsAllowed lsHandler
    cases hs : safePath env (jsOr pp "/") with
    | none => simp
    | some p =>
        by_cases hA : isPathAllowed env p allowed <;>
          simp [hA, FsOp.target]
  · intro pp h; simp [readHandler, h]
  · intro pp p h hna; simp [readHandler, h, hna]
  · intro pp
    unfold effectsAllowed readHandler
    cases hs : safePath env (jsOr pp "") with
    | none => simp
    | some p =>
        by_cases hA : isPathAllowed env p allowed <;>
          simp [hA, FsOp.target]
  · intro bp bc h; simp [writeHandler, h]
  · intro bp c p h hna; simp [writeHandler, h, hna]
  · intro bp bc
    unfold effectsAllowed writeHandler
    cases hs : safePath env (bp.getD "") with
    | none => simp
    | some p =>
        cases bc with
        | none => simp
        | some c =>
            by_cases hA : isPathAllowed env p allowed <;>
              simp [hA, FsOp.target]
  · intro bp h; simp [mkdirHandler, h]
  · intro bp p h hna; simp [mkdirHandler, h, hna]
  · intro bp
    unfold effectsAllowed mkdirHandler
    cases hs : safePath env (bp.getD "") with
    | none => simp
    | some p =>
        by_cases hA : isPathAllowed env p allowed <;>
          simp [hA, FsOp.target]
  · intro pp h; simp [deleteHandler, h]
  · intro pp p h hna; simp [deleteHandler, h, hna]
  · intro pp
    unfold effectsAllowed deleteHandler
    cases hs : safePath env (jsOr pp "") with
    | none => simp
    | some p =>
        by_cases hA : isPathAllowed env p allowed
        · by_cases hR : isAllowedRoot env p allowed <;>
            simp [hA, hR, FsOp.target]
        · simp [hA]
  · intro dp np b h; simp [uploadHandler, h]
  · intro dp np b td fp h hname hjoin hna
    simp [uploadHandler, h, hname, hjoin, hna]
  · intro dp np b
    unfold effectsAllowed uploadHandler
    cases hs : safePath env (jsOr dp "") with
    | none => simp
    | some td =>
        by_cases hn : badUploadName (jsOr np "")
        · simp [hn]
        · cases hj : safePath env (joinAbs td (jsOr np "")) with
          | none => simp [hn, hj]
          | some fp =>
              by_cases hA : isPathAllowed env fp allowed
              · cases b <;> simp [hn, hj, hA, FsOp.target]
              · simp [hn, hj, hA]
  · intro pp qp h; simp [searchHandler, h]
  · intro pp qp p h hna; simp [searchHandler, h, hna]
  · intro pp qp
    unfold effectsAllowed searchHandler
    cases hs : safePath env (jsOr pp "/") with
    | none => simp
    | some p =>
        by_cases hA : isPathAllowed env p allowed
        · by_cases hq : ((jsOr qp "").trim.length = 0 ∨
              256 < (jsOr qp "").trim.length) <;>
            simp [hA, hq, FsOp.target]
        · simp [hA]

/-- C1 counterexample: a mkdir request whose path field canonicalizes to
null is answered 400, not the 403 the claim states (no filesystem operation
is performed either way). -/
theorem mkdir_null_responds_400 :
    safePath envNone ((some "").getD "") = none ∧
      mkdirHandler envNone ["/data"] ioOk (some "") = (400, []) ∧
      (400 : Nat) ≠ 403 :=
  ⟨rfl, rfl, by decide⟩

/-- Witness for C1 (amended) at a concrete environment: `/etc` resolves
outside the single allow-listed root `/data` and ls answers 403. -/
theorem gateway_guards_witness :
    (safePath envData (jsOr (some "/etc") "/") = some "/etc" ∧
        isPathAllowed envData "/etc" ["/data"] = false) ∧
      lsHandler envData ["/data"] ioOk (some "/etc") = (403, []) :=
  ⟨⟨rfl, rfl⟩,
    (gateway_guards envData ["/data"] ioOk).2.1 (some "/etc") "/etc" rfl rfl⟩

/-! ## C8 — upload filename validation -/

/-- C8: the upload filename validation rejects separators, backslashes,
NUL, `"."` and `".."` with 400 and no write — but it enforces no filename
length limit: a 300-character name sails through the name check and the
upload is executed, contradicting the claimed fixed length cap. -/
theorem upload_filename_no_length_limit :
    (∀ (env : Env) (allowed : List String) (io : FsOp → Nat)
        (dp : Option String) (np : Option String) (b : UploadBody) (td : String),
        safePath env (jsOr dp "") = some td →
        badUploadName (jsOr np "") = true →
        uploadHandler env allowed io dp np b = (400, []))
    ∧ badUploadName "../evil" = true ∧ badUploadName ".." = true ∧
      badUploadName "ev/il" = true ∧ badUploadName "." = true ∧
      badUploadName "" = true
    ∧ longName.length = 300 ∧ badUploadName longName = false
    ∧ uploadHandler envData ["/data"] ioOk (some "/data") (some longName) .ok
        = (200, [FsOp.uploadWrite ("/data/" ++ longName)]) := by
  refine ⟨?_, by decide, by decide, by decide, by decide, by decide,
    by decide, by decide, by decide⟩
  intro env allowed io dp np b td h hbad
  simp [uploadHandler, h, hbad]

/-- Witness for C8's general 400 branch at a concrete bad filename. -/
theorem upload_filename_witness :
    (safePath envData (jsOr (some "/data") "") = some "/data" ∧
        badUploadName (jsOr (some "ev/il") "") = true) ∧
      uploadHandler envData ["/data"] ioOk (some "/data") (some "ev/il") .ok
        = (400, []) :=
  ⟨⟨rfl, by decide⟩,
    upload_filename_no_length_limit.1 envData ["/data"] ioOk (some "/data")
      (some "ev/il") .ok "/data" rfl (by decide)⟩

/-! ## C6 — searchFiles terminates, bounded by maxResults and maxDepth -/

/-- The entry loop never exhausts fuel if the deeper walk never does. -/
theorem loopGo_isSome (lq : String) (mr : Nat)
    (recur : Nat → String → SState → Option SState) (d : Nat) (dir : String)
    (hr : ∀ dir2 st2, (recur (d + 1) dir2 st2).isSome = true) :
    ∀ (l : List SEntry) (st : SState),
      (loopGo lq mr recur d dir l st).isSome = true := by
  intro l
  induction l with
  | nil => intro st; simp [loopGo]
  | cons e rest ih =>
      intro st
      unfold loopGo
      by_cases hlen : st.results.length ≥ mr
      · rw [if_pos hlen]; rfl
      · rw [if_neg hlen]
        by_cases hh : strStarts e.name "." = true
        · rw [if_pos hh]; exact ih st
        · rw [if_neg hh]
          by_cases hd : e.isDirectory = true
          · rw [if_pos hd]
            obtain ⟨st2, hst2⟩ := Option.isSome_iff_exists.mp
              (hr (joinAbs dir e.name) (stepResult lq dir e st))
            rw [hst2]
            exact ih st2
          · rw [if_neg hd]
            exact ih _

/-- Fuel `maxDepth + 2 - depth` always suffices for `walk`: the recursion
is bounded by the depth guard alone, for every filesystem (symlink cycles
included). -/
theorem walkF_isSome (fs : SearchFs) (lq : String) (mr md : Nat) :
    ∀ (f d : Nat), md + 2 ≤ f + d → d ≤ md + 1 →
      ∀ (dir : String) (st : SState),
        (walkF fs lq mr md f d dir st).isSome = true := by
  intro f
  induction f with
  | zero => intro d h1 h2; omega
  | succ f ih =>
      intro d h1 h2 dir st
      unfold walkF walkLevel
      by_cases hg : d > md ∨ st.results.length ≥ mr
      · simp [hg]
      · simp only [if_neg hg]
        cases hrp : fs.realpath dir with
        | none => simp
        | some rd =>
            by_cases hv : rd ∈ st.visited
            · simp [hv]
            · simp only [if_neg hv]
              cases hrd : fs.readdir dir with
              | none => simp
              | some entries =>
                  apply loopGo_isSome
                  intro dir2 st2
                  apply ih (d + 1) (by omega) (by omega)

/-- The entry loop is pointwise determined by the deeper walk. -/
theorem loopGo_congr (lq : String) (mr : Nat)
    (r1 r2 : Nat → String → SState → Option SState) (d : Nat) (dir : String)
    (h : ∀ dir2 st2, r1 (d + 1) dir2 st2 = r2 (d + 1) dir2 st2) :
    ∀ (l : List SEntry) (st : SState),
      loopGo lq mr r1 d dir l st = loopGo lq mr r2 d dir l st := by
  intro l
  induction l with
  | nil => intro st; rfl
  | cons e rest ih =>
      intro st
      unfold loopGo
      by_cases hlen : st.results.length ≥ mr
      · rw [if_pos hlen, if_pos hlen]
      · rw [if_neg hlen, if_neg hlen]
        by_cases hh : strStarts e.name "." = true
        · rw [if_pos hh, if_pos hh]; exact ih st
        · rw [if_neg hh, if_neg hh]
          by_cases hd : e.isDirectory = true
          · rw [if_pos hd, if_pos hd, h]
            cases r2 (d + 1) (joinAbs dir e.name) (stepResult lq dir e st) with
            | none => rfl
            | some st2 => exact ih st2
          · rw [if_neg hd, if_neg hd]
            exact ih _

/-- Any two sufficient fuel budgets compute the same walk: the fuel is an
artifact of the embedding, not of the code. -/
theorem walkF_fuel_irrel (fs : SearchFs) (lq : String) (mr md : Nat) :
    ∀ (f g d : Nat), md + 2 ≤ f + d → md + 2 ≤ g + d → d ≤ md + 1 →
      ∀ (dir : String) (st : SState),
        walkF fs lq mr md f d dir st = walkF fs lq mr md g d dir st := by
  intro f
  induction f with
  | zero => intro g d h1 h2 h3; omega
  | succ f ih =>
      intro g d h1 h2 h3 dir st
      cases g with
      | zero => omega
      | succ g =>
          unfold walkF walkLevel
          by_cases hg : d > md ∨ st.results.length ≥ mr
          · simp [hg]
          · simp only [if_neg hg]
            cases hrp : fs.realpath dir with
            | none => rfl
            | some rd =>
                by_cases hv : rd ∈ st.visited
                · simp [hv]
                · simp only [if_neg hv]
                  cases hrd : fs.readdir dir with
                  | none => rfl
                  | some entries =>
                      apply loopGo_congr
                      intro dir2 st2
                      exact ih g (d + 1) (by omega) (by omega) (by omega) dir2 st2

/-- The entry loop preserves the `maxResults` bound on the accumulator. -/
theorem loopGo_len (lq : String) (mr : Nat)
    (recur : Nat → String → SState → Option SState) (d : Nat) (dir : String)
    (hr : ∀ dir2 st2 st3, st2.results.length ≤ mr →
        recur (d + 1) dir2 st2 = some st3 → st3.results.length ≤ mr) :
    ∀ (l : List SEntry) (st st' : SState), st.results.length ≤ mr →
      loopGo lq mr recur d dir l st = some st' → st'.results.length ≤ mr := by
  intro l
  induction l with
  | nil =>
      intro st st' hst h
      simp only [loopGo] at h
      cases h; exact hst
  | cons e rest ih =>
      intro st st' hst h
      unfold loopGo at h
      by_cases hlen : st.results.length ≥ mr
      · rw [if_pos hlen] at h
        cases h; exact hst
      · rw [if_neg hlen] at h
        by_cases hh : strStarts e.name "." = true
        · rw [if_pos hh] at h
          exact ih st st' hst h
        · rw [if_neg hh] at h
          have hst1 : (stepResult lq dir e st).results.length ≤ mr := by
            unfold stepResult
            by_cases hmq : nameMatches e.name lq = true
            · rw [if_pos hmq]; simp; omega
            · rw [if_neg hmq]; exact hst
          by_cases hd : e.isDirectory = true
          · rw [if_pos hd] at h
            cases hre : recur (d + 1) (joinAbs dir e.name) (stepResult lq dir e st) with
            | none => rw [hre] at h; cases h
            | some st2 =>
                rw [hre] at h
                exact ih st2 st' (hr _ _ st2 hst1 hre) h
          · rw [if_neg hd] at h
            exact ih _ st' hst1 h

/-- `walk` preserves the `maxResults` bound on the accumulator. -/
theorem walkF_len (fs : SearchFs) (lq : String) (mr md : Nat) :
    ∀ (f d : Nat) (dir : String) (st st' : SState),
      st.results.length ≤ mr → walkF fs lq mr md f d dir st = some st' →
      st'.results.length ≤ mr := by
  intro f
  induction f with
  | zero => intro d dir st st' hst h; cases h
  | succ f ih =>
      intro d dir st st' hst h
      unfold walkF walkLevel at h
      by_cases hg : d > md ∨ st.results.length ≥ mr
      · rw [if_pos hg] at h
        cases h; exact hst
      · rw [if_neg hg] at h
        cases hrp : fs.realpath dir with
        | none => simp only [hrp] at h; cases h; exact hst
        | some rd =>
            simp only [hrp] at h
            by_cases hv : rd ∈ st.visited
            · rw [if_pos hv] at h
              cases h; exact hst
            · rw [if_neg hv] at h
              cases hrd : fs.readdir dir with
              | none =>
                  simp only [hrd] at h
                  cases h; exact hst
              | some entries =>
                  simp only [hrd] at h
                  exact loopGo_len lq mr _ d dir
                    (fun dir2 st2 st3 h2 h3 => ih (d + 1) dir2 st2 st3 h2 h3)
                    entries _ st' (by simpa using hst) h

/-- C6: for every filesystem — symlink cycles included — `searchFiles`
terminates (any fuel of at least `maxDepth + 2` yields a result, and all
sufficient budgets yield the same one), returns at most `maxResults`
results, never descends past `maxDepth` (a walk call at greater depth
returns its state untouched), and prunes any directory whose canonical
real path is already in the invocation's visited-set. -/
theorem searchFiles_bounded :
    ∀ (fs : SearchFs) (base q : String) (mr md : Nat),
      (∀ f, md + 2 ≤ f →
          (walkF fs (strLower q) mr md f 0 base ⟨[], []⟩).isSome = true ∧
          walkF fs (strLower q) mr md f 0 base ⟨[], []⟩ =
            walkF fs (strLower q) mr md (md + 2) 0 base ⟨[], []⟩)
    ∧ (searchFiles fs base q mr md).length ≤ mr
    ∧ (∀ (f d : Nat) (dir : String) (st : SState) (r : String),
          fs.realpath dir = some r → r ∈ st.visited →
          walkF fs (strLower q) mr md (f + 1) d dir st = some st)
    ∧ ∀ (f d : Nat) (dir : String) (st : SState), md < d →
        walkF fs (strLower q) mr md (f + 1) d dir st = some st := by
  intro fs base q mr md
  refine ⟨?_, ?_, ?_, ?_⟩
  · intro f hf
    exact ⟨walkF_isSome fs (strLower q) mr md f 0 (by omega) (by omega) base ⟨[], []⟩,
      walkF_fuel_irrel fs (strLower q) mr md f (md + 2) 0 (by omega) (by omega)
        (by omega) base ⟨[], []⟩⟩
  · have hs := walkF_isSome fs (strLower q) mr md (md + 2) 0 (by omega) (by omega)
      base ⟨[], []⟩
    cases hw : walkF fs (strLower q) mr md (md + 2) 0 base ⟨[], []⟩ with
    | none => rw [hw] at hs; cases hs
    | some st' =>
        have := walkF_len fs (strLower q) mr md (md + 2) 0 base ⟨[], []⟩ st'
          (by simp) hw
        simpa [searchFiles, hw] using this
  · intro f d dir st r h1 h2
    unfold walkF walkLevel
    by_cases hg : d > md ∨ st.results.length ≥ mr
    · simp [hg]
    · simp [hg, h1, h2]
  · intro f d dir st h
    unfold walkF walkLevel
    simp [h]

/-- Witness for C6 on the cyclic filesystem `cycFs`: the search terminates
with the single pruned result, and the pruning/depth clauses fire at
concrete inputs. -/
theorem searchFiles_bounded_witness :
    ((5 : Nat) + 2 ≤ 9 ∧ cycFs.realpath "/a/link" = some "/a" ∧
        "/a" ∈ (⟨[], ["/a"]⟩ : SState).visited ∧ (5 : Nat) < 6) ∧
      walkF cycFs (strLower "lin") 50 5 9 0 "/a" ⟨[], []⟩ =
        walkF cycFs (strLower "lin") 50 5 (5 + 2) 0 "/a" ⟨[], []⟩ ∧
      (searchFiles cycFs "/a" "lin" 50 5).length ≤ 50 ∧
      walkF cycFs (strLower "lin") 50 5 (3 + 1) 1 "/a/link" ⟨[], ["/a"]⟩
        = some ⟨[], ["/a"]⟩ ∧
      walkF cycFs (strLower "lin") 50 5 (3 + 1) 6 "/a/link" ⟨[], ["/a"]⟩
        = some ⟨[], ["/a"]⟩ :=
  ⟨⟨by decide, by decide, by decide, by decide⟩,
    ((searchFiles_bounded cycFs "/a" "lin" 50 5).1 9 (by decide)).2,
    (searchFiles_bounded cycFs "/a" "lin" 50 5).2.1,
    (searchFiles_bounded cycFs "/a" "lin" 50 5).2.2.1 3 1 "/a/link" ⟨[], ["/a"]⟩
      "/a" (by decide) (by decide),
    (searchFiles_bounded cycFs "/a" "lin" 50 5).2.2.2 3 6 "/a/link" ⟨[], ["/a"]⟩
      (by decide)⟩

/-! ## C10 — search results stay inside the searched subtree -/

/-- `strStarts` in terms of list-prefix. -/
theorem strStarts_iff (s p : String) : strStarts s p = true ↔ p.data <+: s.data := by
  unfold strStarts
  exact List.isPrefixOf_iff_prefix

/-- Splitting around an inserted separator splits the two halves. -/
theorem splitAux_append_sep (ys : List Char) :
    ∀ (xs acc : List Char),
      splitAux (xs ++ '/' :: ys) acc = splitAux xs acc ++ splitAux ys [] := by
  intro xs
  induction xs with
  | nil =>
      intro acc
      show splitAux ('/' :: ys) acc = splitAux [] acc ++ splitAux ys []
      by_cases ha : acc = [] <;> simp [splitAux, ha]
  | cons c xs ih =>
      intro acc
      show splitAux (c :: (xs ++ '/' :: ys)) acc
        = splitAux (c :: xs) acc ++ splitAux ys []
      by_cases hc : c = '/'
      · by_cases ha : acc = [] <;> simp [splitAux, hc, ha, ih]
      · simp [splitAux, hc, ih]

/-- Splitting a separator-free run yields that run as a single segment. -/
theorem splitAux_no_sep :
    ∀ (ys acc : List Char), '/' ∉ ys →
      splitAux ys acc =
        if acc = [] ∧ ys = [] then [] else [acc.reverse ++ ys] := by
  intro ys
  induction ys with
  | nil =>
      intro acc h
      by_cases ha : acc = [] <;> simp [splitAux, ha]
  | cons c t ih =>
      intro acc h
      have hc : c ≠ '/' := fun hh => h (hh ▸ List.mem_cons_self _ _)
      have ht : '/' ∉ t := fun hm => h (List.mem_cons_of_mem _ hm)
      rw [show splitAux (c :: t) acc
          = if c = '/' then
              (if acc = [] then splitAux t [] else acc.reverse :: splitAux t [])
            else splitAux t (c :: acc) from rfl]
      rw [if_neg hc]
      rw [ih (c :: acc) ht]
      simp

/-- Every segment `splitAux` produces is nonempty and separator-free. -/
theorem segs_valid :
    ∀ (cs acc : List Char), (∀ c ∈ acc, c ≠ '/') →
      ∀ seg ∈ splitAux cs acc, seg ≠ [] ∧ '/' ∉ seg := by
  intro cs
  induction cs with
  | nil =>
      intro acc hacc seg hseg
      by_cases ha : acc = []
      · simp [splitAux, ha] at hseg
      · simp only [splitAux, if_neg ha, List.mem_singleton] at hseg
        subst hseg
        refine ⟨by simpa using ha, fun hm => ?_⟩
        exact hacc '/' (by simpa using hm) rfl
  | cons c t ih =>
      intro acc hacc seg hseg
      by_cases hc : c = '/'
      · by_cases ha : acc = []
        · rw [show splitAux (c :: t) acc = splitAux t [] by
            simp [splitAux, hc, ha]] at hseg
          exact ih [] (by simp) seg hseg
        · rw [show splitAux (c :: t) acc = acc.reverse :: splitAux t [] by
            simp [splitAux, hc, ha]] at hseg
          rcases List.mem_cons.mp hseg with h | h
          · subst h
            refine ⟨by simpa using ha, fun hm => ?_⟩
            exact hacc '/' (by simpa using hm) rfl
          · exact ih [] (by simp) seg h
      · rw [show splitAux (c :: t) acc = splitAux t (c :: acc) by
          simp [splitAux, hc]] at hseg
        refine ih (c :: acc) ?_ seg hseg
        intro x hx
        rcases List.mem_cons.mp hx with h | h
        · exact h ▸ hc
        · exact hacc x h

/-- Interleaving with a last segment appended. -/
theorem interC_append_last (x : List Char) :
    ∀ l : List (List Char),
      interC (l ++ [x]) = if l = [] then x else interC l ++ '/' :: x := by
  intro l
  induction l with
  | nil => simp [interC]
  | cons s t ih =>
      cases t with
      | nil => simp [interC]
      | cons s2 t2 =>
          show interC (s :: ((s2 :: t2) ++ [x])) = _
          rw [show interC (s :: ((s2 :: t2) ++ [x]))
              = s ++ '/' :: interC ((s2 :: t2) ++ [x]) from rfl]
          rw [ih]
          simp [interC]

/-- Splitting is a left inverse of interleaving on valid segment lists. -/
theorem splitAux_interC :
    ∀ L : List (List Char), (∀ seg ∈ L, seg ≠ [] ∧ '/' ∉ seg) →
      splitAux (interC L) [] = L := by
  intro L
  induction L with
  | nil => intro h; simp [interC, splitAux]
  | cons x t ih =>
      intro hv
      have hx := hv x (by simp)
      cases t with
      | nil =>
          show splitAux (interC [x]) [] = [x]
          rw [show interC [x] = x from rfl, splitAux_no_sep x [] hx.2]
          simp [hx.1]
      | cons y t2 =>
          rw [show interC (x :: y :: t2) = x ++ '/' :: interC (y :: t2) from rfl]
          rw [splitAux_append_sep, splitAux_no_sep x [] hx.2]
          rw [ih fun seg hs => hv seg (by simp [hs])]
          simp [hx.1]

/-- Dot-processing leaves a dot-free segment list untouched. -/
theorem normDotsGo_id :
    ∀ (l acc : List (List Char)),
      (∀ s ∈ l, s ≠ ['.'] ∧ s ≠ ['.', '.']) → normDotsGo acc l = acc ++ l := by
  intro l
  induction l with
  | nil => intro acc h; simp [normDotsGo]
  | cons x t ih =>
      intro acc h
      have hx := h x (by simp)
      rw [show normDotsGo acc (x :: t) = normDotsGo (acc ++ [x]) t by
        simp [normDotsGo, hx.1, hx.2]]
      rw [ih (acc ++ [x]) fun s hs => h s (by simp [hs])]
      simp

/-- `String.append` on the character-list representation. -/
theorem str_data_append (a b : String) : (a ++ b).data = a.data ++ b.data :=
  String.data_append a b

/-- `path.join` of a canonical absolute directory and a plain (nonempty,
separator-free, non-dot) entry name is plain concatenation with `'/'`, it
preserves canonicity, and it appends one segment. -/
theorem joinAbs_eq (d n : String) (hd : canonAbs d) (hn1 : n.data ≠ [])
    (hn2 : '/' ∉ n.data) (hn3 : n.data ≠ ['.']) (hn4 : n.data ≠ ['.', '.']) :
    joinAbs d n = (if d = "/" then String.mk ('/' :: n.data)
        else String.mk (d.data ++ '/' :: n.data))
      ∧ canonAbs (joinAbs d n)
      ∧ segsOf (joinAbs d n) = segsOf d ++ [n.data] := by
  have hdata : (d ++ "/" ++ n).data = d.data ++ '/' :: n.data := by
    rw [str_data_append, str_data_append]
    simp [show ("/" : String).data = ['/'] from rfl]
  have hsegs : segsOf (d ++ "/" ++ n) = segsOf d ++ [n.data] := by
    unfold segsOf
    rw [hdata, splitAux_append_sep, splitAux_no_sep n.data [] hn2]
    simp [hn1]
  have hdvalid : ∀ seg ∈ segsOf d, seg ≠ [] ∧ '/' ∉ seg :=
    segs_valid d.data [] (by simp)
  have hLvalid : ∀ seg ∈ segsOf d ++ [n.data], seg ≠ [] ∧ '/' ∉ seg := by
    intro seg hs
    rcases List.mem_append.mp hs with h | h
    · exact hdvalid seg h
    · rw [List.mem_singleton.mp h]; exact ⟨hn1, hn2⟩
  have hLdots : ∀ seg ∈ segsOf d ++ [n.data], seg ≠ ['.'] ∧ seg ≠ ['.', '.'] := by
    intro seg hs
    rcases List.mem_append.mp hs with h | h
    · exact hd.2 seg h
    · rw [List.mem_singleton.mp h]; exact ⟨hn3, hn4⟩
  have hjoin : joinAbs d n = renderAbs (segsOf d ++ [n.data]) := by
    unfold joinAbs normalizeAbs
    rw [hsegs, normDotsGo_id _ [] hLdots]
    rfl
  have hsegs2 : segsOf (joinAbs d n) = segsOf d ++ [n.data] := by
    rw [hjoin]
    show splitAux ('/' :: interC (segsOf d ++ [n.data])) [] = _
    rw [show splitAux ('/' :: interC (segsOf d ++ [n.data])) []
        = splitAux (interC (segsOf d ++ [n.data])) [] by simp [splitAux]]
    exact splitAux_interC _ hLvalid
  refine ⟨?_, ⟨by rw [hsegs2, ← hjoin], fun seg hs => hLdots seg (hsegs2 ▸ hs)⟩,
    hsegs2⟩
  by_cases hroot : d = "/"
  · rw [if_pos hroot, hjoin]
    have h0 : segsOf d = [] := by rw [hroot]; rfl
    rw [h0]
    rfl
  · rw [if_neg hroot, hjoin]
    have hne : segsOf d ≠ [] := by
      intro h0
      apply hroot
      have h1 := hd.1
      rw [h0] at h1
      exact h1.symm
    unfold renderAbs
    rw [interC_append_last n.data (segsOf d), if_neg hne]
    have hdd : d.data = '/' :: interC (segsOf d) := by
      conv_lhs => rw [← hd.1]
      rfl
    rw [hdd]
    rfl

/-- A non-hidden name is neither `"."` nor `".."`. -/
theorem not_dot_of_not_hidden (n : String) (h : strStarts n "." = false) :
    n.data ≠ ['.'] ∧ n.data ≠ ['.', '.'] := by
  unfold strStarts at h
  constructor <;> intro hc <;> rw [hc] at h <;> exact absurd h (by decide)

/-- Joining a valid entry name onto an in-subtree directory lands strictly
inside the subtree again. -/
theorem dirOk_step (base dir n : String) (hbase : canonAbs base)
    (hdir : dirOk base dir) (hn1 : n.data ≠ []) (hn2 : '/' ∉ n.data)
    (hn3 : n.data ≠ ['.']) (hn4 : n.data ≠ ['.', '.']) :
    canonAbs (joinAbs dir n) ∧ strStarts (joinAbs dir n) (extBase base) = true ∧
      joinAbs dir n ≠ base := by
  obtain ⟨hcanon, hdisj⟩ := hdir
  obtain ⟨heq, hjcanon, -⟩ := joinAbs_eq dir n hcanon hn1 hn2 hn3 hn4
  have hslash : ("/" : String).data = ['/'] := rfl
  have hnlen : 1 ≤ n.data.length := List.length_pos.mpr hn1
  refine ⟨hjcanon, ?_⟩
  suffices h : (extBase base).data <+: (joinAbs dir n).data ∧
      (joinAbs dir n).data ≠ base.data by
    refine ⟨(strStarts_iff _ _).mpr h.1, fun he => h.2 (he ▸ rfl)⟩
  rcases hdisj with hdb | ⟨hpre, hneq⟩
  · subst hdb
    by_cases hb : dir = "/"
    · rw [heq, if_pos hb]
      unfold extBase
      rw [if_pos hb, hb]
      refine ⟨⟨n.data, rfl⟩, fun hcontra => hn1 ?_⟩
      simpa [hslash] using hcontra
    · rw [heq, if_neg hb]
      unfold extBase
      rw [if_neg hb, str_data_append, hslash]
      refine ⟨⟨n.data, by simp⟩, fun hcontra => ?_⟩
      have hlencontra := congrArg List.length hcontra
      simp only [List.length_append, List.length_cons] at hlencontra
      omega
  · have hpre2 : (extBase base).data <+: dir.data := (strStarts_iff _ _).mp hpre
    have hext_ge : base.data.length ≤ (extBase base).data.length := by
      unfold extBase
      by_cases hb : base = "/"
      · rw [if_pos hb, hb]
      · rw [if_neg hb, str_data_append, hslash]
        simp
    have hdroot : dir ≠ "/" := by
      by_cases hb : base = "/"
      · exact fun h0 => hneq (by rw [h0, hb])
      · intro h0
        have h1 : (extBase base).data.length = base.data.length + 1 := by
          unfold extBase
          rw [if_neg hb, str_data_append, hslash]
          simp
        have h2 := hpre2.length_le
        have hbh : base.data = '/' :: interC (segsOf base) := by
          conv_lhs => rw [← hbase.1]
          rfl
        have hb1 : 1 ≤ base.data.length := by rw [hbh]; simp
        rw [h0] at h2
        rw [hslash] at h2
        simp only [List.length_singleton] at h2
        omega
    rw [heq, if_neg hdroot]
    constructor
    · exact hpre2.trans ⟨'/' :: n.data, rfl⟩
    · intro hcontra
      have h2 := hpre2.length_le
      have hlencontra := congrArg List.length hcontra
      simp only [List.length_append, List.length_cons] at hlencontra
      omega

/-- The entry loop preserves C10's result invariant. -/
theorem loopGo_inv (lq : String) (mr : Nat)
    (recur : Nat → String → SState → Option SState) (d : Nat) (base : String)
    (hbase : canonAbs base)
    (hr : ∀ dir2 st2 st3, dirOk base dir2 →
        (∀ r ∈ st2.results, resultOk base lq r) →
        recur (d + 1) dir2 st2 = some st3 →
        ∀ r ∈ st3.results, resultOk base lq r) :
    ∀ (l : List SEntry) (dir : String) (st st' : SState), dirOk base dir →
      (∀ e ∈ l, e.name.data ≠ [] ∧ '/' ∉ e.name.data) →
      (∀ r ∈ st.results, resultOk base lq r) →
      loopGo lq mr recur d dir l st = some st' →
      ∀ r ∈ st'.results, resultOk base lq r := by
  intro l
  induction l with
  | nil =>
      intro dir st st' _ _ hres h
      simp only [loopGo] at h
      cases h; exact hres
  | cons e rest ih =>
      intro dir st st' hdir hval hres h
      have hvtail : ∀ e2 ∈ rest, e2.name.data ≠ [] ∧ '/' ∉ e2.name.data :=
        fun e2 he2 => hval e2 (List.mem_cons_of_mem _ he2)
      have hname := hval e (List.mem_cons_self _ _)
      unfold loopGo at h
      by_cases hlen : st.results.length ≥ mr
      · rw [if_pos hlen] at h
        cases h; exact hres
      · rw [if_neg hlen] at h
        by_cases hh : strStarts e.name "." = true
        · rw [if_pos hh] at h
          exact ih dir st st' hdir hvtail hres h
        · rw [if_neg hh] at h
          have hh2 : strStarts e.name "." = false := by simpa using hh
          have hdots := not_dot_of_not_hidden e.name hh2
          have hstep := dirOk_step base dir e.name hbase hdir hname.1 hname.2
            hdots.1 hdots.2
          have hst1 : ∀ r ∈ (stepResult lq dir e st).results, resultOk base lq r := by
            unfold stepResult
            by_cases hmq : nameMatches e.name lq = true
            · rw [if_pos hmq]
              intro r hrm
              have hrm2 : r ∈ st.results ∨
                  r = ⟨joinAbs dir e.name, e.name, e.isDirectory⟩ := by
                simpa using hrm
              rcases hrm2 with hA | hB
              · exact hres r hA
              · rw [hB]
                exact ⟨hmq, hh2, hstep.2.1, hstep.2.2⟩
            · rw [if_neg hmq]
              exact hres
          by_cases hd : e.isDirectory = true
          · rw [if_pos hd] at h
            cases hre : recur (d + 1) (joinAbs dir e.name) (stepResult lq dir e st) with
            | none => rw [hre] at h; cases h
            | some st2 =>
                rw [hre] at h
                have hst2 : ∀ r ∈ st2.results, resultOk base lq r :=
                  hr _ _ st2 ⟨hstep.1, Or.inr ⟨hstep.2.1, hstep.2.2⟩⟩ hst1 hre
                exact ih dir st2 st' hdir hvtail hst2 h
          · rw [if_neg hd] at h
            exact ih dir _ st' hdir hvtail hst1 h

/-- The walk preserves C10's result invariant. -/
theorem walkF_inv (fs : SearchFs) (lq : String) (mr md : Nat) (base : String)
    (hbase : canonAbs base) (hfs : ValidFs fs) :
    ∀ (f d : Nat) (dir : String) (st st' : SState), dirOk base dir →
      (∀ r ∈ st.results, resultOk base lq r) →
      walkF fs lq mr md f d dir st = some st' →
      ∀ r ∈ st'.results, resultOk base lq r := by
  intro f
  induction f with
  | zero => intro d dir st st' _ _ h; cases h
  | succ f ih =>
      intro d dir st st' hdir hres h
      unfold walkF walkLevel at h
      by_cases hg : d > md ∨ st.results.length ≥ mr
      · rw [if_pos hg] at h
        cases h; exact hres
      · rw [if_neg hg] at h
        cases hrp : fs.realpath dir with
        | none => simp only [hrp] at h; cases h; exact hres
        | some rd =>
            simp only [hrp] at h
            by_cases hv : rd ∈ st.visited
            · rw [if_pos hv] at h
              cases h; exact hres
            · rw [if_neg hv] at h
              cases hrd : fs.readdir dir with
              | none =>
                  simp only [hrd] at h
                  cases h; exact hres
              | some entries =>
                  simp only [hrd] at h
                  exact loopGo_inv lq mr (walkF fs lq mr md f) d base hbase
                    (fun dir2 st2 st3 hd2 hr2 he => ih (d + 1) dir2 st2 st3 hd2 hr2 he)
                    entries dir _ st' hdir (hfs dir entries hrd)
                    (by simpa using hres) h

/-- C10 (amended): on any filesystem with real directory-entry names and a
canonical absolute base, every result of `searchFiles` has a name that
contains the query case-insensitively, a name that does not start with
`"."`, and a path strictly inside the searched subtree: it starts with
`basePath + "/"` when `basePath` is not the filesystem root, and with `"/"`
otherwise, and never equals `basePath`. -/
theorem searchFiles_results_in_subtree :
    ∀ (fs : SearchFs) (base q : String) (mr md : Nat), ValidFs fs →
      canonAbs base →
      ∀ r ∈ searchFiles fs base q mr md,
        nameMatches r.name (strLower q) = true ∧ strStarts r.name "." = false ∧
          strStarts r.path (extBase base) = true ∧ r.path ≠ base := by
  intro fs base q mr md hfs hbase r hr
  have hs := walkF_isSome fs (strLower q) mr md (md + 2) 0 (by omega) (by omega)
    base ⟨[], []⟩
  cases hw : walkF fs (strLower q) mr md (md + 2) 0 base ⟨[], []⟩ with
  | none => rw [hw] at hs; cases hs
  | some st' =>
      have hok := walkF_inv fs (strLower q) mr md base hbase hfs (md + 2) 0 base
        ⟨[], []⟩ st' ⟨hbase, Or.inl rfl⟩ (by simp) hw
      apply hok
      simpa [searchFiles, hw] using hr

/-- C10 counterexample: searching from the base `/` yields the result path
`/x`, which does not start with `basePath + separator` (`"//"`) — the
claim's unconditional prefix clause fails at the filesystem root. -/
theorem searchFiles_root_result_no_sep :
    searchFiles rootFs "/" "x" 50 5 = [⟨"/x", "x", false⟩] ∧
      strStarts "/x" ("/" ++ "/") = false :=
  ⟨by decide, by decide⟩

/-- `flatFs` has real directory-entry names. -/
theorem flatFs_valid : ValidFs flatFs := by
  intro p l h e he
  cases h
  rw [List.mem_singleton.mp he]
  exact ⟨by decide, by decide⟩

/-- Witness for C10 (amended) on `flatFs` rooted at `/base`. -/
theorem searchFiles_results_witness :
    (ValidFs flatFs ∧ canonAbs "/base" ∧
        (⟨"/base/x", "x", false⟩ : SearchResult) ∈
          searchFiles flatFs "/base" "x" 50 5) ∧
      nameMatches "x" (strLower "x") = true ∧ strStarts "x" "." = false ∧
        strStarts "/base/x" (extBase "/base") = true ∧ "/base/x" ≠ "/base" :=
  ⟨⟨flatFs_valid, by decide, by decide⟩,
    searchFiles_results_in_subtree flatFs "/base" "x" 50 5 flatFs_valid
      (by decide) ⟨"/base/x", "x", false⟩ (by decide)⟩

end TgFiles

